import Mathlib

/-!
# xxhash (32-bit): a shallow embedding of `xxhash.go`

Conventions of the embedding.

* A Go `uint32` is a natural number below `2 ^ 32`; every `uint32` operation of
  the source is followed by an explicit reduction `u32` (modulo `2 ^ 32`).
* A Go `byte` is `Fin 256`; a `[]byte` is a `List Byte`.
* A raw four-byte load `*(*uint32)(unsafe.Pointer(p))` is modelled as the load
  performed by a little-endian host (`readUint32`); the golden vectors of
  `xxhash_test.go` are the little-endian values.
* A `uintptr` pointing into a buffer is modelled by the buffer together with an
  offset into it; the loop test `i <= n-16` of `body` on such pointers is the
  test `i + 16 ≤ n` on the offsets.
* The Go `int` fields `size` and `over` are natural numbers: they are never
  negative, and the running total `size` is taken not to overflow the machine
  `int`.
* A run-time panic of Go is the result `none`. The index and slice expressions
  of `Write` are checked; the loads of `body` and `tail` lie inside the buffer
  whenever the buffer of the state has its 16 bytes and at most 16 of them are
  pending, as in every state built by `New`, `Reset` and `Write`.
* A method with a pointer receiver returns the state it leaves together with
  its result.
* Loops carry a fuel argument which bounds the number of iterations; the
  callers pass a fuel that the loop cannot exhaust (`bodyLoop_eq`,
  `tailWords_eq`, `tailBytes_eq`).
-/

namespace xxhash

/-- A Go `byte`. -/
abbrev Byte := Fin 256

/-- Reduction of a natural number to a Go `uint32`. -/
def u32 (x : Nat) : Nat := x % 4294967296

def prime1 : Nat := 2654435761
def prime2 : Nat := 2246822519
def prime3 : Nat := 3266489917
def prime4 : Nat := 668265263
def prime5 : Nat := 374761393

/-- The byte at offset `i` of a buffer, as a number (`uint32(p[i])`). -/
def byteAt (p : List Byte) (i : Nat) : Nat := (p.getD i 0).val

/-- The load `*(*uint32)(unsafe.Pointer(&p[i]))` on a little-endian host. -/
def readUint32 (p : List Byte) (i : Nat) : Nat :=
  byteAt p i + 256 * byteAt p (i + 1) + 65536 * byteAt p (i + 2) + 16777216 * byteAt p (i + 3)

/-- The function `initialize` of the source (the name is reserved here). -/
def initializeAcc (seed : Nat) : Nat × Nat × Nat × Nat :=
  let v1 := u32 (u32 (seed + prime1) + prime2)
  let v2 := u32 (seed + prime2)
  let v3 := seed
  let v4 := u32 (seed + (4294967296 - prime1))
  (v1, v2, v3, v4)

/-- The function `update` of the source. -/
def update (v x : Nat) : Nat :=
  let v := u32 (v + u32 (x * prime2))
  u32 ((u32 (v <<< 13) ||| (v >>> 19)) * prime1)

/-- The loop of `body`: `for i <= n-16 { ... }` over the buffer `mem`, the
pointers `i` and `n` being offsets into `mem`. -/
def bodyLoop : Nat → Nat → Nat → Nat → Nat → List Byte → Nat → Nat → Nat × Nat × Nat × Nat
  | 0, v1, v2, v3, v4, _, _, _ => (v1, v2, v3, v4)
  | fuel + 1, v1, v2, v3, v4, mem, i, n =>
    if i + 16 ≤ n then
      bodyLoop fuel
        (update v1 (readUint32 mem i))
        (update v2 (readUint32 mem (i + 4)))
        (update v3 (readUint32 mem (i + 8)))
        (update v4 (readUint32 mem (i + 12)))
        mem (i + 16) n
    else (v1, v2, v3, v4)

/-- The function `body` of the source, over the bytes `mem[i..n)`. -/
def body (v1 v2 v3 v4 : Nat) (mem : List Byte) (i n : Nat) : Nat × Nat × Nat × Nat :=
  bodyLoop (n - i) v1 v2 v3 v4 mem i n

/-- The first loop of `tail`: `for ; i <= n-4; i += 4`. Returns `h` and `i`. -/
def tailWords : Nat → Nat → List Byte → Nat → Nat → Nat × Nat
  | 0, h, _, i, _ => (h, i)
  | fuel + 1, h, p, i, n =>
    if i + 4 ≤ n then
      let h := u32 (h + u32 (readUint32 p i * prime3))
      let h := u32 ((u32 (h <<< 17) ||| (h >>> 15)) * prime4)
      tailWords fuel h p (i + 4) n
    else (h, i)

/-- The second loop of `tail`: `for ; i < n; i++`. -/
def tailBytes : Nat → Nat → List Byte → Nat → Nat → Nat
  | 0, h, _, _, _ => h
  | fuel + 1, h, p, i, n =>
    if i < n then
      let h := u32 (h + u32 (byteAt p i * prime5))
      let h := u32 ((u32 (h <<< 11) ||| (h >>> 21)) * prime1)
      tailBytes fuel h p (i + 1) n
    else h

/-- The function `tail` of the source. Its callers pass `n ≤ len(p)`, so that
every index expression `p[i]` is in range. -/
def tail (h : Nat) (p : List Byte) (n : Nat) : Nat :=
  let r := tailWords n h p 0 n
  tailBytes n r.1 p r.2 n

/-- The function `fmix` of the source. -/
def fmix (h : Nat) : Nat :=
  let h := h ^^^ (h >>> 15)
  let h := u32 (h * prime2)
  let h := h ^^^ (h >>> 13)
  let h := u32 (h * prime3)
  let h := h ^^^ (h >>> 16)
  h

/-- The function `Checksum` of the source. -/
def Checksum (data : List Byte) (seed : Nat) : Nat :=
  let n := data.length
  let v := initializeAcc seed
  let v := if n > 0 then body v.1 v.2.1 v.2.2.1 v.2.2.2 data 0 n else v
  let h :=
    if n < 16 then u32 (seed + prime5)
    else
      let h := u32 (v.1 <<< 1) ||| (v.1 >>> 31)
      let h := u32 (h + (u32 (v.2.1 <<< 7) ||| (v.2.1 >>> 25)))
      let h := u32 (h + (u32 (v.2.2.1 <<< 12) ||| (v.2.2.1 >>> 20)))
      let h := u32 (h + (u32 (v.2.2.2 <<< 18) ||| (v.2.2.2 >>> 14)))
      h
  let h := u32 (h + u32 n)
  let q := data.drop (n - (n &&& 15))
  let h := tail h q q.length
  fmix h

/-- The struct `digest` of the source. -/
structure digest where
  size : Nat
  seed : Nat
  v1 : Nat
  v2 : Nat
  v3 : Nat
  v4 : Nat
  over : Nat
  tail : List Byte
deriving DecidableEq

/-- The builtin `copy(dst, src)`: the contents of `dst` afterwards. -/
def copy (dst src : List Byte) : List Byte :=
  src.take dst.length ++ dst.drop src.length

/-- The statement `copy(dst[off:], src)`: the contents of `dst` afterwards, or a
panic when `off` is beyond the length of `dst`. -/
def copyAt (dst : List Byte) (off : Nat) (src : List Byte) : Option (List Byte) :=
  if off ≤ dst.length then some (dst.take off ++ copy (dst.drop off) src) else none

/-- The method `Reset` of the source. -/
def Reset (d : digest) : digest :=
  let d := { d with size := 0 }
  let v := initializeAcc d.seed
  let d := { d with v1 := v.1, v2 := v.2.1, v3 := v.2.2.1, v4 := v.2.2.2 }
  let d := { d with over := 0 }
  { d with tail := List.replicate 16 0 }

/-- The function `New` of the source: a zero `digest` with the seed set, then `Reset`. -/
def New (seed : Nat) : digest :=
  let state : digest :=
    { size := 0, seed := 0, v1 := 0, v2 := 0, v3 := 0, v4 := 0, over := 0, tail := [] }
  let state := { state with seed := seed }
  Reset state

/-- The method `BlockSize` of the source. -/
def BlockSize (d : digest) : digest × Nat := (d, 4)

/-- The method `Size` of the source. -/
def Size (d : digest) : digest × Nat := (d, 4)

/-- The method `Sum32` of the source: the state afterwards and the value returned. -/
def Sum32 (d : digest) : digest × Nat :=
  let h :=
    if d.size < 16 then u32 (d.seed + prime5)
    else
      let h := u32 (d.v1 <<< 1) ||| (d.v1 >>> 31)
      let h := u32 (h + (u32 (d.v2 <<< 7) ||| (d.v2 >>> 25)))
      let h := u32 (h + (u32 (d.v3 <<< 12) ||| (d.v3 >>> 20)))
      let h := u32 (h + (u32 (d.v4 <<< 18) ||| (d.v4 >>> 14)))
      h
  let h := u32 (h + u32 d.size)
  let h := tail h d.tail d.over
  (d, fmix h)

/-- The library call `binary.BigEndian.PutUint32(r[:], h)` on a zeroed `[4]byte`:
the four bytes `byte(h>>24), byte(h>>16), byte(h>>8), byte(h)`. -/
def putUint32BE (h : Nat) : List Byte :=
  [Fin.ofNat (h >>> 24), Fin.ofNat (h >>> 16), Fin.ofNat (h >>> 8), Fin.ofNat h]

/-- The method `Sum` of the source: the state afterwards and the slice returned. -/
def Sum (d : digest) (b : List Byte) : digest × List Byte :=
  let r := Sum32 d
  (r.1, b ++ putUint32BE r.2)

/-- The method `Write` of the source: the state afterwards and the pair
`(int, error)` returned (`none` as error is `nil`), or `none` for a panic. -/
def Write (d : digest) (data : List Byte) : Option (digest × Nat × Option String) :=
  let n := data.length
  let d := { d with size := d.size + n }
  if n + d.over < 16 then
    match copyAt d.tail d.over data with
    | none => none
    | some t =>
      let d := { d with tail := t }
      let d := { d with over := d.over + n }
      some (d, n, none)
  else
    match copyAt d.tail d.over data with
    | none => none
    | some t =>
      let d := { d with tail := t }
      -- i = 16 - d.over
      if d.over ≤ 16 then
        let i := 16 - d.over
        -- &d.tail[0]
        if 0 < d.tail.length then
          let v := body d.v1 d.v2 d.v3 d.v4 d.tail 0 16
          let d := { d with v1 := v.1, v2 := v.2.1, v3 := v.2.2.1, v4 := v.2.2.2 }
          let d := { d with over := 0 }
          -- &data[i]
          if i < n then
            let v := body d.v1 d.v2 d.v3 d.v4 data i n
            let d := { d with v1 := v.1, v2 := v.2.1, v3 := v.2.2.1, v4 := v.2.2.2 }
            let i := n - (n &&& 15)
            let d := { d with tail := copy d.tail (data.drop i) }
            let d := { d with over := n - i }
            some (d, n, none)
          else none
        else none
      else none

/-- Consecutive `Write` calls, each on the state left by the call before it. -/
def writeAll : digest → List (List Byte) → Option digest
  | d, [] => some d
  | d, c :: cs =>
    match Write d c with
    | none => none
    | some r => writeAll r.1 cs

/-- A mutating call on a hasher. -/
inductive Call where
  | write (data : List Byte)
  | reset

/-- A sequence of `Write` and `Reset` calls, each on the state left by the call before it. -/
def run : digest → List Call → Option digest
  | d, [] => some d
  | d, Call.write data :: cs =>
    match Write d data with
    | none => none
    | some r => run r.1 cs
  | d, Call.reset :: cs => run (Reset d) cs

/-! ## The reference digest, in the words of the specification -/

/-- Rotation of a 32-bit value to the left by `r` bits. -/
def rotl (x r : Nat) : Nat := (x <<< r) % 4294967296 ||| x >>> (32 - r)

/-- Little-endian decoding of a group of bytes. -/
def leDecode : List Byte → Nat
  | [] => 0
  | b :: bs => b.val + 256 * leDecode bs

/-- Specification 4.1, the initializer. -/
def refInit (seed : Nat) : Nat × Nat × Nat × Nat :=
  ((seed + prime1 + prime2) % 4294967296, (seed + prime2) % 4294967296, seed,
    (((seed : Int) - (prime1 : Int)) % 4294967296).toNat)

/-- Specification 4.2, the round function. -/
def refUpdate (v x : Nat) : Nat := rotl ((v + x * prime2) % 4294967296) 13 * prime1 % 4294967296

/-- One block step: the four lanes take the four words of a 16-byte group. -/
def refBlock (v : Nat × Nat × Nat × Nat) (blk : List Byte) : Nat × Nat × Nat × Nat :=
  (refUpdate v.1 (leDecode (blk.take 4)),
   refUpdate v.2.1 (leDecode ((blk.drop 4).take 4)),
   refUpdate v.2.2.1 (leDecode ((blk.drop 8).take 4)),
   refUpdate v.2.2.2 (leDecode ((blk.drop 12).take 4)))

/-- Specification 4.3, the block processor: block steps while at least 16 bytes
remain unconsumed. -/
def refBody (v : Nat × Nat × Nat × Nat) (bs : List Byte) : Nat × Nat × Nat × Nat :=
  if 16 ≤ bs.length then refBody (refBlock v (bs.take 16)) (bs.drop 16) else v
termination_by bs.length
decreasing_by simp only [List.length_drop]; omega

/-- The step of the tail processor for one 4-byte word. -/
def refWordStep (h w : Nat) : Nat := rotl ((h + w * prime3) % 4294967296) 17 * prime4 % 4294967296

/-- The step of the tail processor for one single byte. -/
def refByteStep (h : Nat) (b : Byte) : Nat := rotl ((h + b.val * prime5) % 4294967296) 11 * prime1 % 4294967296

/-- Specification 4.4, the tail processor: all complete 4-byte groups first,
left to right, then the remaining single bytes. -/
def refTail (h : Nat) (bs : List Byte) : Nat :=
  if 4 ≤ bs.length then refTail (refWordStep h (leDecode (bs.take 4))) (bs.drop 4)
  else bs.foldl refByteStep h
termination_by bs.length
decreasing_by simp only [List.length_drop]; omega

/-- Specification 4.6 and 4.8, the reference digest of a complete buffer. -/
def referenceDigest (data : List Byte) (seed : Nat) : Nat :=
  let n := data.length
  let v := refBody (refInit seed) (data.take (n - n % 16))
  let h0 :=
    if n < 16 then (seed + prime5) % 4294967296
    else (rotl v.1 1 + rotl v.2.1 7 + rotl v.2.2.1 12 + rotl v.2.2.2 18) % 4294967296
  let h := (h0 + n % 4294967296) % 4294967296
  fmix (refTail h (data.drop (n - n % 16)))

/-! ## Test vectors -/

/-- The text `a`. -/
def textA : List Byte := [97]

/-- The text `abc`. -/
def textAbc : List Byte := [97, 98, 99]

/-- The text `abcdefghij`. -/
def textAbcdefghij : List Byte := [97, 98, 99, 100, 101, 102, 103, 104, 105, 106]

/-- The 27 bytes of the text `Nepal premier won(0x27)t resign.` of `golden32`. -/
def textNepal : List Byte :=
  [78, 101, 112, 97, 108, 32, 112, 114, 101, 109, 105, 101, 114, 32, 119, 111, 110, 39, 116, 32, 114, 101, 115, 105, 103, 110, 46]

/-- The 16 bytes `abcdefghijklmnop`. -/
def textSixteen : List Byte := [97, 98, 99, 100, 101, 102, 103, 104, 105, 106, 107, 108, 109, 110, 111, 112]

/-- The 16 bytes `bcdefghijklmnopq`. -/
def textBToQ : List Byte := [98, 99, 100, 101, 102, 103, 104, 105, 106, 107, 108, 109, 110, 111, 112, 113]

/-- The 13 bytes `defghijklmnop`. -/
def textDToP : List Byte := [100, 101, 102, 103, 104, 105, 106, 107, 108, 109, 110, 111, 112]

/-- The state reached from `New(1)` by `Write` of `abc` and then of `a`. -/
def stateAbcA : digest where
  size := 4
  seed := 1
  v1 := 606290985
  v2 := 2246822520
  v3 := 1
  v4 := 1640531536
  over := 4
  tail := [97, 98, 99, 97, 0, 0, 0, 0, 0, 0, 0, 0, 0, 0, 0, 0]

/-- The state reached from `New(1)` by `Write` of the 27 bytes of `textNepal`. -/
def stateNepal : digest where
  size := 27
  seed := 1
  v1 := 3373768557
  v2 := 3070511768
  v3 := 2356217553
  v4 := 2412113021
  over := 11
  tail := [110, 39, 116, 32, 114, 101, 115, 105, 103, 110, 46, 101, 114, 32, 119, 111]

/-! ## Block steps and tail steps, in the words of the specification -/

/-- The little-endian 32-bit word at byte offset `off` of a byte sequence. -/
def wordAt (bs : List Byte) (off : Nat) : Nat := leDecode ((bs.drop off).take 4)

/-- The `k`-th block step over a byte sequence: every lane takes the round
function with one of the four consecutive words at byte offsets `16k`,
`16k+4`, `16k+8`, `16k+12`. -/
def blockStep (bs : List Byte) (v : Nat × Nat × Nat × Nat) (k : Nat) : Nat × Nat × Nat × Nat :=
  (refUpdate v.1 (wordAt bs (16 * k)), refUpdate v.2.1 (wordAt bs (16 * k + 4)),
   refUpdate v.2.2.1 (wordAt bs (16 * k + 8)), refUpdate v.2.2.2 (wordAt bs (16 * k + 12)))

/-- The block steps `0, 1, ..., m - 1` in this order. -/
def blockSteps (bs : List Byte) (v : Nat × Nat × Nat × Nat) (m : Nat) : Nat × Nat × Nat × Nat :=
  (List.range m).foldl (blockStep bs) v

/-- The word steps of the tail processor over the words `0, 1, ..., m - 1` of a
byte sequence, left to right. -/
def wordSteps (bs : List Byte) (h : Nat) (m : Nat) : Nat :=
  (List.range m).foldl (fun h k => refWordStep h (wordAt bs (4 * k))) h

/-- The state `stateNepal` with other stale bytes at the offsets 11 to 15 of the buffer. -/
def stateNepalStale : digest where
  size := 27
  seed := 1
  v1 := 3373768557
  v2 := 3070511768
  v3 := 2356217553
  v4 := 2412113021
  over := 11
  tail := [110, 39, 116, 32, 114, 101, 115, 105, 103, 110, 46, 255, 0, 7, 200, 1]

/-- The 12 bytes `bcdefghijklm`. -/
def textBToM : List Byte := [98, 99, 100, 101, 102, 103, 104, 105, 106, 107, 108, 109]

/-! ## Arithmetic and list lemmas -/

theorem and_fifteen (n : Nat) : n &&& 15 = n % 16 :=
  Nat.and_pow_two_sub_one_eq_mod n 4

theorem rotl_eq (x r : Nat) : rotl x r = (u32 (x <<< r) ||| x >>> (32 - r)) := rfl

theorem refInit_eq (seed : Nat) : refInit seed = initializeAcc seed := by
  simp only [refInit, initializeAcc, u32, prime1, prime2]
  refine Prod.ext ?_ (Prod.ext ?_ (Prod.ext ?_ ?_)) <;> simp only <;> omega

theorem refUpdate_eq (v x : Nat) : refUpdate v x = update v x := by
  simp only [refUpdate, update, rotl_eq, u32]
  rw [Nat.add_mod_mod]

theorem refWordStep_eq (h w : Nat) :
    refWordStep h w =
      u32 ((u32 (u32 (h + u32 (w * prime3)) <<< 17) ||| (u32 (h + u32 (w * prime3)) >>> 15)) * prime4) := by
  simp only [refWordStep, rotl_eq, u32]
  rw [Nat.add_mod_mod]

theorem refByteStep_eq (h : Nat) (b : Byte) :
    refByteStep h b =
      u32 ((u32 (u32 (h + u32 (b.val * prime5)) <<< 11) ||| (u32 (h + u32 (b.val * prime5)) >>> 21)) * prime1) := by
  simp only [refByteStep, rotl_eq, u32]
  rw [Nat.add_mod_mod]

theorem byteAt_drop (p : List Byte) (i k : Nat) : byteAt (p.drop i) k = byteAt p (i + k) := by
  simp only [byteAt, List.getD_eq_getElem?_getD, List.getElem?_drop]

theorem byteAt_take (p : List Byte) (n k : Nat) (h : k < n) : byteAt (p.take n) k = byteAt p k := by
  simp only [byteAt, List.getD_eq_getElem?_getD, List.getElem?_take, h, if_true]

theorem readUint32_drop (p : List Byte) (i k : Nat) :
    readUint32 (p.drop i) k = readUint32 p (i + k) := by
  simp only [readUint32, byteAt_drop, Nat.add_assoc]

theorem readUint32_take (p : List Byte) (n i : Nat) (h : i + 4 ≤ n) :
    readUint32 (p.take n) i = readUint32 p i := by
  simp only [readUint32]
  rw [byteAt_take p n i (by omega), byteAt_take p n (i + 1) (by omega),
    byteAt_take p n (i + 2) (by omega), byteAt_take p n (i + 3) (by omega)]

theorem leDecode_take_four (p : List Byte) : leDecode (p.take 4) = readUint32 p 0 := by
  rcases p with _ | ⟨a, _ | ⟨b, _ | ⟨c, _ | ⟨d, r⟩⟩⟩⟩ <;>
    simp [leDecode, readUint32, byteAt] <;> omega

theorem leDecode_drop_take (p : List Byte) (i : Nat) :
    leDecode ((p.drop i).take 4) = readUint32 p i := by
  rw [leDecode_take_four, readUint32_drop, Nat.add_zero]

theorem refBody_short (v : Nat × Nat × Nat × Nat) (bs : List Byte) (h : bs.length < 16) :
    refBody v bs = v := by
  rw [refBody, if_neg (by omega)]

theorem refBody_step (v : Nat × Nat × Nat × Nat) (bs : List Byte) (h : 16 ≤ bs.length) :
    refBody v bs = refBody (refBlock v (bs.take 16)) (bs.drop 16) := by
  rw [refBody, if_pos h]

theorem refBlock_eq (v1 v2 v3 v4 : Nat) (p : List Byte) (i n : Nat) (h : i + 16 ≤ n) :
    refBlock (v1, v2, v3, v4) (((p.take n).drop i).take 16) =
      (update v1 (readUint32 p i), update v2 (readUint32 p (i + 4)),
        update v3 (readUint32 p (i + 8)), update v4 (readUint32 p (i + 12))) := by
  simp only [refBlock, refUpdate_eq, leDecode_take_four, readUint32_drop, Nat.add_zero]
  rw [readUint32_take _ 16 0 (by omega), readUint32_take _ 16 4 (by omega),
    readUint32_take _ 16 8 (by omega), readUint32_take _ 16 12 (by omega)]
  simp only [readUint32_drop, Nat.add_zero]
  rw [readUint32_take p n i (by omega), readUint32_take p n (i + 4) (by omega),
    readUint32_take p n (i + 8) (by omega), readUint32_take p n (i + 12) (by omega)]

/-- The loop of `body` never exhausts a fuel of at least `(n - i) / 16`, and
computes the block processor over the bytes `mem[i..n)`. -/
theorem bodyLoop_eq (mem : List Byte) (n : Nat) (hn : n ≤ mem.length) :
    ∀ (fuel v1 v2 v3 v4 i : Nat), n - i ≤ 16 * fuel + 15 →
      bodyLoop fuel v1 v2 v3 v4 mem i n = refBody (v1, v2, v3, v4) ((mem.take n).drop i) := by
  intro fuel
  induction fuel with
  | zero =>
    intro v1 v2 v3 v4 i hf
    rw [refBody_short _ _ (by simp only [List.length_drop, List.length_take]; omega)]
    rfl
  | succ fuel ih =>
    intro v1 v2 v3 v4 i hf
    by_cases h : i + 16 ≤ n
    · have hlen : 16 ≤ ((mem.take n).drop i).length := by
        simp only [List.length_drop, List.length_take]; omega
      rw [refBody_step _ _ hlen, refBlock_eq v1 v2 v3 v4 mem i n h, List.drop_drop]
      simp only [bodyLoop, if_pos h]
      rw [ih _ _ _ _ (i + 16) (by omega)]
    · rw [refBody_short _ _ (by simp only [List.length_drop, List.length_take]; omega)]
      simp only [bodyLoop, if_neg h]

theorem body_eq (v1 v2 v3 v4 : Nat) (mem : List Byte) (i n : Nat) (hn : n ≤ mem.length) :
    body v1 v2 v3 v4 mem i n = refBody (v1, v2, v3, v4) ((mem.take n).drop i) :=
  bodyLoop_eq mem n hn (n - i) v1 v2 v3 v4 i (by omega)

theorem refTail_short (h : Nat) (bs : List Byte) (hl : bs.length < 4) :
    refTail h bs = bs.foldl refByteStep h := by
  rw [refTail, if_neg (by omega)]

theorem refTail_step (h : Nat) (bs : List Byte) (hl : 4 ≤ bs.length) :
    refTail h bs = refTail (refWordStep h (leDecode (bs.take 4))) (bs.drop 4) := by
  rw [refTail, if_pos hl]

theorem drop_eq_cons (p : List Byte) (i : Nat) (h : i < p.length) :
    p.drop i = p.getD i 0 :: p.drop (i + 1) := by
  rw [List.drop_eq_getElem_cons h, List.getD_eq_getElem?_getD, List.getElem?_eq_getElem h]
  rfl

/-- The second loop of `tail` never exhausts a fuel of at least `n - i`, and
folds the single-byte step over the bytes `p[i..n)`. -/
theorem tailBytes_eq (p : List Byte) (n : Nat) (hn : n ≤ p.length) :
    ∀ (fuel h i : Nat), n - i ≤ fuel →
      tailBytes fuel h p i n = ((p.take n).drop i).foldl refByteStep h := by
  intro fuel
  induction fuel with
  | zero =>
    intro h i hf
    rw [List.drop_eq_nil_of_le (by simp only [List.length_take]; omega)]
    rfl
  | succ fuel ih =>
    intro h i hf
    by_cases hi : i < n
    · rw [drop_eq_cons _ i (by simp only [List.length_take]; omega), List.foldl_cons,
        refByteStep_eq]
      simp only [tailBytes, if_pos hi]
      rw [ih _ (i + 1) (by omega)]
      have hb : byteAt p i = ((p.take n).getD i 0).val := (byteAt_take p n i hi).symm
      rw [hb]
    · rw [List.drop_eq_nil_of_le (by simp only [List.length_take]; omega)]
      simp only [tailBytes, if_neg hi, List.foldl_nil]

/-- The first loop of `tail` never exhausts a fuel of at least `(n - i) / 4`;
followed by the single-byte fold it computes the tail processor over `p[i..n)`. -/
theorem tailWords_eq (p : List Byte) (n : Nat) (hn : n ≤ p.length) :
    ∀ (fuel h i : Nat), n - i ≤ 4 * fuel + 3 →
      ((p.take n).drop (tailWords fuel h p i n).2).foldl refByteStep (tailWords fuel h p i n).1 =
        refTail h ((p.take n).drop i) := by
  intro fuel
  induction fuel with
  | zero =>
    intro h i hf
    rw [refTail_short _ _ (by simp only [List.length_drop, List.length_take]; omega)]
    rfl
  | succ fuel ih =>
    intro h i hf
    by_cases hi : i + 4 ≤ n
    · have hlen : 4 ≤ ((p.take n).drop i).length := by
        simp only [List.length_drop, List.length_take]; omega
      rw [refTail_step _ _ hlen, leDecode_drop_take, readUint32_take p n i hi, List.drop_drop,
        refWordStep_eq]
      simp only [tailWords, if_pos hi]
      rw [ih _ (i + 4) (by omega)]
    · rw [refTail_short _ _ (by simp only [List.length_drop, List.length_take]; omega)]
      simp only [tailWords, if_neg hi]

theorem tail_eq (h : Nat) (p : List Byte) (n : Nat) (hn : n ≤ p.length) :
    tail h p n = refTail h (p.take n) := by
  have hw := tailWords_eq p n hn n h 0 (by omega)
  rw [List.drop_zero] at hw
  rw [← hw]
  simp only [tail]
  exact tailBytes_eq p n hn n _ _ (by omega)

/-- The block processor ignores the trailing bytes that do not fill a block. -/
theorem refBody_take_full :
    ∀ (m : Nat) (bs : List Byte) (v : Nat × Nat × Nat × Nat), bs.length = m →
      refBody v (bs.take (m - m % 16)) = refBody v bs := by
  intro m
  induction m using Nat.strong_induction_on with
  | _ m ih =>
    intro bs v hm
    by_cases h : 16 ≤ m
    · have hl : 16 ≤ (bs.take (m - m % 16)).length := by
        simp only [List.length_take]; omega
      rw [refBody_step _ _ hl, refBody_step v bs (by omega), List.take_take, List.drop_take,
        Nat.min_eq_left (by omega)]
      have hk : m - m % 16 - 16 = (m - 16) - (m - 16) % 16 := by omega
      rw [hk]
      exact ih (m - 16) (by omega) (bs.drop 16) _ (by simp only [List.length_drop]; omega)
    · have hz : m - m % 16 = 0 := by omega
      rw [hz, List.take_zero, refBody_short v bs (by omega), refBody_short v [] (by simp)]

/-- C1. For every byte sequence `data` and every seed, `Checksum data seed` is
the reference digest: accumulators initialised from the seed, the block
processor run over the leading `n - n % 16` bytes, `h = seed + P5` when
`n < 16` and the sum of the four rotated accumulators otherwise, plus `n`
modulo `2 ^ 32`, then the tail processor over the trailing `n % 16` bytes and
the avalanche finalizer; words are decoded little-endian and all arithmetic is
modulo `2 ^ 32`. -/
theorem checksum_eq_referenceDigest (data : List Byte) (seed : Nat) :
    Checksum data seed = referenceDigest data seed := by
  have hbody : (if data.length > 0 then
        body (initializeAcc seed).1 (initializeAcc seed).2.1 (initializeAcc seed).2.2.1
          (initializeAcc seed).2.2.2 data 0 data.length
      else initializeAcc seed) =
      refBody (refInit seed) (data.take (data.length - data.length % 16)) := by
    rw [refBody_take_full data.length data _ rfl, refInit_eq]
    by_cases h0 : data.length > 0
    · rw [if_pos h0, body_eq _ _ _ _ data 0 data.length (Nat.le_refl _), List.drop_zero,
        List.take_length]
    · rw [if_neg h0, refBody_short _ _ (by omega)]
  have htail : ∀ h : Nat,
      tail h (data.drop (data.length - (data.length &&& 15)))
          (data.drop (data.length - (data.length &&& 15))).length =
        refTail h (data.drop (data.length - data.length % 16)) := by
    intro h
    rw [tail_eq _ _ _ (Nat.le_refl _), List.take_length, and_fifteen]
  simp only [Checksum, referenceDigest, hbody, htail, rotl_eq, u32]
  congr 2
  split
  · omega
  · simp only [Nat.reduceSub]
    omega

/-! ## The claims on the one-shot function and the streaming hasher -/

/-- C2. Failing input of the claim that `New(s)`, one `Write(b)` and `Sum32()`
return `Checksum(b, s)`: for the 16 bytes `abcdefghijklmnop` and seed 1 the
expression `&data[i]` of `Write` is evaluated with `i = 16 = len(data)` and
panics, while `Checksum` returns `0x7CFB9556`. -/
theorem write_once_sixteen_bytes :
    textSixteen.length = 16 ∧ Write (New 1) textSixteen = none ∧
      Checksum textSixteen 1 = 0x7CFB9556 := by
  decide

/-- C3. Failing input of streaming equivalence: with seed 0, writing the chunk
`a` and then the 16-byte chunk `bcdefghijklmnopq` completes, leaves no pending
byte (the byte `q` is lost) and gives the digest `0xB7B7B2CB`, while a single
`Write` of the 17 bytes `abcdefghijklmnopq` leaves one pending byte and gives
`0xB3B873E1`, the value of `Checksum`. -/
theorem chunked_write_diverges :
    (writeAll (New 0) [textA, textBToQ]).map (fun d => (d.size, d.over, (Sum32 d).2)) =
        some (17, 0, 0xB7B7B2CB) ∧
      (writeAll (New 0) [textA ++ textBToQ]).map (fun d => (d.size, d.over, (Sum32 d).2)) =
        some (17, 1, 0xB3B873E1) ∧
      Checksum (textA ++ textBToQ) 0 = 0xB3B873E1 := by
  decide

/-- C4. Known-answer vectors of the one-shot function with seed 1. -/
theorem checksum_known_answers :
    Checksum [] 1 = 0x0B2CB792 ∧ Checksum textA 1 = 0xF514706F ∧
      Checksum textAbc 1 = 0xAA3DA8FF ∧ Checksum textAbcdefghij 1 = 0x5BB3B6B8 ∧
      Checksum textNepal 1 = 0x4A9C59C8 := by
  decide

/-- C5. Known-answer vectors of the streaming hasher with seed 1: `Reset`,
`Write(text)` and `Sum(nil)` on a hasher from `New(1)` return the four digest
bytes; the 27-byte text goes through the full-block branch of `Write`, which
leaves 11 pending bytes. -/
theorem hasher_known_answers :
    (Write (Reset (New 1)) []).map (fun r => (Sum r.1 []).2) = some [0x0B, 0x2C, 0xB7, 0x92] ∧
      (Write (Reset (New 1)) textA).map (fun r => (Sum r.1 []).2) =
        some [0xF5, 0x14, 0x70, 0x6F] ∧
      (Write (Reset (New 1)) textAbc).map (fun r => (Sum r.1 []).2) =
        some [0xAA, 0x3D, 0xA8, 0xFF] ∧
      (Write (Reset (New 1)) textAbcdefghij).map (fun r => (Sum r.1 []).2) =
        some [0x5B, 0xB3, 0xB6, 0xB8] ∧
      (Write (Reset (New 1)) textNepal).map (fun r => (Sum r.1 []).2) =
        some [0x4A, 0x9C, 0x59, 0xC8] ∧
      textNepal.length = 27 ∧ ¬ (textNepal.length + (Reset (New 1)).over < 16) ∧
      (Write (Reset (New 1)) textNepal).map (fun r => r.1.over) = some 11 := by
  decide

/-- C6. Failing input of the claim that `Write` never fails: the state reached
from `New(0)` by `Write` of `abc` has 3 pending bytes in a 16-byte buffer, and
`Write` of the 13 bytes `defghijklmnop` panics on it (`&data[i]` with
`i = 13 = len(data)`). -/
theorem write_fails_on_reachable_state :
    ∃ d : digest, run (New 0) [Call.write textAbc] = some d ∧ d.over = 3 ∧
      d.tail.length = 16 ∧ Write d textDToP = none :=
  ⟨_, rfl, by decide, by decide, by decide⟩

theorem Reset_state (d : digest) : Reset d = New d.seed := by
  simp only [Reset, New]

theorem Write_seed (d : digest) (data : List Byte) (r : digest × Nat × Option String)
    (h : Write d data = some r) : r.1.seed = d.seed := by
  simp only [Write] at h
  split at h
  · split at h
    · exact absurd h (by simp)
    · simp only [Option.some.injEq] at h
      rw [← h]
  · split at h
    · exact absurd h (by simp)
    · split at h
      · split at h
        · split at h
          · simp only [Option.some.injEq] at h
            rw [← h]
          · exact absurd h (by simp)
        · exact absurd h (by simp)
      · exact absurd h (by simp)

theorem writeAll_seed : ∀ (cs : List (List Byte)) (d r : digest),
    writeAll d cs = some r → r.seed = d.seed := by
  intro cs
  induction cs with
  | nil =>
    intro d r h
    simp only [writeAll, Option.some.injEq] at h
    rw [h]
  | cons c cs ih =>
    intro d r h
    simp only [writeAll] at h
    split at h
    · exact absurd h (by simp)
    · next w hw => rw [ih _ _ h, Write_seed d c w hw]

/-- C7. Reset correctness: on every state reached from `New(seed)` by a
sequence of `Write` calls, `Reset` gives the state of `New(seed)` (same seed,
accumulators derived from the seed, total length 0, no pending byte, zeroed
buffer), so that replaying any sequence of `Write` calls after `Reset` reaches
the same state, and the same `Sum32`, as on a new hasher. -/
theorem reset_eq_new (seed : Nat) (cs : List (List Byte)) (d : digest)
    (h : writeAll (New seed) cs = some d) :
    Reset d = New seed ∧ (Reset d).seed = seed ∧ (Reset d).size = 0 ∧ (Reset d).over = 0 ∧
      ((Reset d).v1, (Reset d).v2, (Reset d).v3, (Reset d).v4) = initializeAcc seed ∧
      ∀ replay : List (List Byte),
        writeAll (Reset d) replay = writeAll (New seed) replay ∧
        (writeAll (Reset d) replay).map (fun s => (Sum32 s).2) =
          (writeAll (New seed) replay).map (fun s => (Sum32 s).2) := by
  have hs : d.seed = seed := by
    rw [writeAll_seed cs _ d h]
    simp only [New, Reset]
  have hr : Reset d = New seed := by rw [Reset_state, hs]
  refine ⟨hr, ?_, ?_, ?_, ?_, ?_⟩
  · simp only [Reset, hs]
  · simp only [Reset]
  · simp only [Reset]
  · simp only [Reset, hs]
  · intro replay
    rw [hr]
    exact ⟨rfl, rfl⟩

theorem reset_eq_new_witness :
    writeAll (New 1) [textAbc, textA] = some stateAbcA ∧ Reset stateAbcA = New 1 :=
  ⟨by decide, (reset_eq_new 1 [textAbc, textA] stateAbcA (by decide)).1⟩

theorem fmix_lt (h : Nat) : fmix h < 4294967296 := by
  simp only [fmix]
  have h4 : u32 ((u32 ((h ^^^ h >>> 15) * prime2) ^^^ u32 ((h ^^^ h >>> 15) * prime2) >>> 13) * prime3)
      < 2 ^ 32 := by
    simp only [u32]; omega
  have hs : u32 ((u32 ((h ^^^ h >>> 15) * prime2) ^^^ u32 ((h ^^^ h >>> 15) * prime2) >>> 13) * prime3)
      >>> 16 < 2 ^ 32 := by
    rw [Nat.shiftRight_eq_div_pow]
    exact Nat.lt_of_le_of_lt (Nat.div_le_self _ _) h4
  have hx := Nat.xor_lt_two_pow h4 hs
  omega

theorem Sum32_lt (d : digest) : (Sum32 d).2 < 4294967296 := by
  simp only [Sum32]
  exact fmix_lt _

/-- C8. For every hasher state and every byte sequence `b`, `Sum(b)` is `b`
followed by exactly four bytes, which are the value of `Sum32()` with the
most-significant byte first; its length is `len(b) + 4`, and `Size()` is 4. -/
theorem sum_appends_big_endian (d : digest) (b : List Byte) :
    ∃ b0 b1 b2 b3 : Byte, (Sum d b).2 = b ++ [b0, b1, b2, b3] ∧
      16777216 * b0.val + 65536 * b1.val + 256 * b2.val + b3.val = (Sum32 d).2 ∧
      (Sum d b).2.length = b.length + 4 ∧ (Size d).2 = 4 := by
  have hlt := Sum32_lt d
  refine ⟨Fin.ofNat ((Sum32 d).2 >>> 24), Fin.ofNat ((Sum32 d).2 >>> 16),
    Fin.ofNat ((Sum32 d).2 >>> 8), Fin.ofNat (Sum32 d).2, ?_, ?_, ?_, ?_⟩
  · simp only [Sum, putUint32BE]
  · simp only [Fin.ofNat, Nat.shiftRight_eq_div_pow]
    omega
  · simp only [Sum, putUint32BE, List.length_append, List.length_cons, List.length_nil]
  · simp only [Size]

theorem Write_over_lt (d : digest) (data : List Byte) (r : digest × Nat × Option String)
    (h : Write d data = some r) : r.1.over < 16 := by
  simp only [Write] at h
  split at h
  · next hlt =>
    split at h
    · exact absurd h (by simp)
    · simp only [Option.some.injEq] at h
      rw [← h]
      simp only
      omega
  · split at h
    · exact absurd h (by simp)
    · split at h
      · split at h
        · split at h
          · simp only [Option.some.injEq] at h
            rw [← h]
            simp only [and_fifteen]
            omega
          · exact absurd h (by simp)
        · exact absurd h (by simp)
      · exact absurd h (by simp)

theorem run_over_lt : ∀ (cs : List Call) (d r : digest),
    d.over < 16 → run d cs = some r → r.over < 16 := by
  intro cs
  induction cs with
  | nil =>
    intro d r hd h
    simp only [run, Option.some.injEq] at h
    rw [← h]
    exact hd
  | cons c cs ih =>
    intro d r hd h
    cases c with
    | write data =>
      simp only [run] at h
      split at h
      · exact absurd h (by simp)
      · next w hw => exact ih _ _ (Write_over_lt d data w hw) h
    | reset =>
      simp only [run] at h
      exact ih _ _ (by simp only [Reset]; omega) h

/-- C9. Pending-count invariant: a new hasher has pending count 0, `Reset`
sets it to 0, a completed `Write` on a state with pending count below 16
leaves a pending count below 16, and so every state reached from `New(seed)`
by `Write` and `Reset` calls has a pending count below 16. -/
theorem pending_count_invariant (seed : Nat) (d : digest) (data : List Byte)
    (w : digest × Nat × Option String) (cs : List Call) (r : digest)
    (hw : Write d data = some w) (hr : run (New seed) cs = some r) :
    (New seed).over = 0 ∧ (Reset d).over = 0 ∧ w.1.over < 16 ∧ 0 ≤ w.1.over ∧ r.over < 16 := by
  refine ⟨?_, ?_, Write_over_lt d data w hw, Nat.zero_le _, ?_⟩
  · simp only [New, Reset]
  · simp only [Reset]
  · exact run_over_lt cs (New seed) r (by simp only [New, Reset]; omega) hr

theorem pending_count_invariant_witness :
    Write (New 1) textNepal = some (stateNepal, 27, none) ∧
      run (New 1) [Call.write textAbc, Call.reset, Call.write textNepal] = some stateNepal ∧
      (New 1).over = 0 ∧ (Reset (New 1)).over = 0 ∧ stateNepal.over < 16 ∧
      0 ≤ stateNepal.over ∧ stateNepal.over < 16 :=
  ⟨by decide, by decide,
    pending_count_invariant 1 (New 1) textNepal (stateNepal, 27, none)
      [Call.write textAbc, Call.reset, Call.write textNepal] stateNepal (by decide) (by decide)⟩

theorem copy_length (dst src : List Byte) : (copy dst src).length = dst.length := by
  simp only [copy, List.length_append, List.length_take, List.length_drop]
  omega

theorem copyAt_length (dst : List Byte) (off : Nat) (src t : List Byte)
    (h : copyAt dst off src = some t) : t.length = dst.length := by
  simp only [copyAt] at h
  split at h
  · simp only [Option.some.injEq] at h
    rw [← h]
    simp only [List.length_append, List.length_take, copy_length, List.length_drop]
    omega
  · exact absurd h (by simp)

theorem Write_tail_length (d : digest) (data : List Byte) (r : digest × Nat × Option String)
    (h : Write d data = some r) : r.1.tail.length = d.tail.length := by
  simp only [Write] at h
  split at h
  · split at h
    · exact absurd h (by simp)
    · next t ht =>
      simp only [Option.some.injEq] at h
      rw [← h]
      exact copyAt_length _ _ _ _ ht
  · split at h
    · exact absurd h (by simp)
    · next t ht =>
      split at h
      · split at h
        · split at h
          · simp only [Option.some.injEq] at h
            rw [← h]
            simp only [copy_length]
            exact copyAt_length _ _ _ _ ht
          · exact absurd h (by simp)
        · exact absurd h (by simp)
      · exact absurd h (by simp)

/-- Every state reached from `New(seed)` by `Write` and `Reset` calls has a
16-byte buffer. -/
theorem run_tail_length : ∀ (cs : List Call) (d r : digest),
    d.tail.length = 16 → run d cs = some r → r.tail.length = 16 := by
  intro cs
  induction cs with
  | nil =>
    intro d r hd h
    simp only [run, Option.some.injEq] at h
    rw [← h]
    exact hd
  | cons c cs ih =>
    intro d r hd h
    cases c with
    | write data =>
      simp only [run] at h
      split at h
      · exact absurd h (by simp)
      · next w hw => exact ih _ _ (by rw [Write_tail_length d data w hw, hd]) h
    | reset =>
      simp only [run] at h
      exact ih _ _ (by simp only [Reset, List.length_replicate]) h

/-- C10. `Sum32` and `Sum` are observations: they leave every field of the
state unchanged, so a second `Sum32` returns the same value, and a `Sum` or
`Sum32` call before a `Write` changes neither the state that `Write` produces
nor any later digest. -/
theorem sum_is_observation (d : digest) (b data : List Byte) :
    (Sum32 d).1 = d ∧ (Sum d b).1 = d ∧
      (Sum32 (Sum32 d).1).2 = (Sum32 d).2 ∧ (Sum32 (Sum d b).1).2 = (Sum32 d).2 ∧
      Write (Sum d b).1 data = Write d data ∧ Write (Sum32 d).1 data = Write d data ∧
      (Write (Sum d b).1 data).map (fun w => (Sum32 w.1).2) =
        (Write d data).map (fun w => (Sum32 w.1).2) := by
  have h1 : (Sum32 d).1 = d := by simp only [Sum32]
  have h2 : (Sum d b).1 = d := by simp only [Sum, Sum32]
  rw [h1, h2]
  exact ⟨rfl, rfl, rfl, rfl, rfl, rfl, rfl⟩

/-! ## The block processor and the tail processor as iterated steps -/

theorem wordAt_eq (bs : List Byte) (off : Nat) : wordAt bs off = readUint32 bs off :=
  leDecode_drop_take bs off

theorem wordAt_drop (bs : List Byte) (a off : Nat) :
    wordAt (bs.drop a) off = wordAt bs (a + off) := by
  rw [wordAt_eq, wordAt_eq, readUint32_drop]

theorem blockStep_zero (bs : List Byte) (v : Nat × Nat × Nat × Nat) :
    blockStep bs v 0 = refBlock v (bs.take 16) := by
  simp only [blockStep, refBlock, wordAt_eq, leDecode_take_four, leDecode_drop_take,
    Nat.mul_zero, Nat.zero_add, readUint32_drop, Nat.add_zero]
  rw [readUint32_take bs 16 0 (by omega), readUint32_take bs 16 4 (by omega),
    readUint32_take bs 16 8 (by omega), readUint32_take bs 16 12 (by omega)]

theorem blockStep_succ (bs : List Byte) (v : Nat × Nat × Nat × Nat) (k : Nat) :
    blockStep bs v (k + 1) = blockStep (bs.drop 16) v k := by
  simp only [blockStep, wordAt_drop]
  have e0 : 16 * (k + 1) = 16 + 16 * k := by omega
  rw [e0]
  simp only [Nat.add_assoc]

theorem blockSteps_succ (bs : List Byte) (v : Nat × Nat × Nat × Nat) (m : Nat) :
    blockSteps bs v (m + 1) = blockSteps (bs.drop 16) (blockStep bs v 0) m := by
  unfold blockSteps
  rw [List.range_succ_eq_map, List.foldl_cons, List.foldl_map]
  simp only [Nat.succ_eq_add_one, blockStep_succ]

theorem refBody_eq_blockSteps : ∀ (m : Nat) (bs : List Byte) (v : Nat × Nat × Nat × Nat),
    bs.length / 16 = m → refBody v bs = blockSteps bs v m := by
  intro m
  induction m with
  | zero =>
    intro bs v hm
    rw [refBody_short v bs (by omega)]
    simp only [blockSteps, List.range_zero, List.foldl_nil]
  | succ m ih =>
    intro bs v hm
    rw [refBody_step v bs (by omega), blockSteps_succ, blockStep_zero]
    exact ih (bs.drop 16) _ (by simp only [List.length_drop]; omega)

theorem wordSteps_succ (bs : List Byte) (h m : Nat) :
    wordSteps bs h (m + 1) = wordSteps (bs.drop 4) (refWordStep h (leDecode (bs.take 4))) m := by
  unfold wordSteps
  rw [List.range_succ_eq_map, List.foldl_cons, List.foldl_map]
  have e0 : wordAt bs (4 * 0) = leDecode (bs.take 4) := by
    simp only [wordAt, Nat.mul_zero, List.drop_zero]
  rw [e0]
  have e1 : ∀ k : Nat, wordAt bs (4 * (k + 1)) = wordAt (bs.drop 4) (4 * k) := by
    intro k
    rw [wordAt_drop]
    have e2 : 4 * (k + 1) = 4 + 4 * k := by omega
    rw [e2]
  simp only [Nat.succ_eq_add_one, e1]

theorem refTail_eq_steps : ∀ (m : Nat) (bs : List Byte) (h : Nat),
    bs.length / 4 = m →
      refTail h bs = (bs.drop (4 * m)).foldl refByteStep (wordSteps bs h m) := by
  intro m
  induction m with
  | zero =>
    intro bs h hm
    rw [refTail_short h bs (by omega)]
    simp only [wordSteps, List.range_zero, List.foldl_nil, Nat.mul_zero, List.drop_zero]
  | succ m ih =>
    intro bs h hm
    rw [refTail_step h bs (by omega), wordSteps_succ,
      ih (bs.drop 4) _ (by simp only [List.length_drop]; omega), List.drop_drop]
    have e : 4 + 4 * m = 4 * (m + 1) := by omega
    rw [e]

theorem body_eq_take (v1 v2 v3 v4 : Nat) (mem : List Byte) (i n : Nat) (hn : n ≤ mem.length) :
    body v1 v2 v3 v4 mem i n =
      refBody (v1, v2, v3, v4) ((mem.take (n - (n - i) % 16)).drop i) := by
  have hl : ((mem.take n).drop i).length = n - i := by
    simp only [List.length_drop, List.length_take]; omega
  rw [body_eq v1 v2 v3 v4 mem i n hn, ← refBody_take_full _ ((mem.take n).drop i) _ rfl, hl,
    List.drop_take, List.drop_take, List.take_take]
  have e : min (n - i - (n - i) % 16) (n - i) = n - (n - i) % 16 - i := by omega
  rw [e]

/-- C15. Block processor: on the bytes `mem[i..n)` of length `L = n - i`, `body`
terminates after exactly `L / 16` block steps (any fuel of at least `L / 16`
gives the same result), the `k`-th of which replaces the four accumulators by
the round function `rotl(v + x * P2, 13) * P1` applied to them and the four
little-endian words at byte offsets `16k`, `16k+4`, `16k+8`, `16k+12` of the
range. The accumulators are returned unchanged when `L < 16`, and the trailing
`L % 16` bytes have no influence on the result. -/
theorem body_block_steps (v1 v2 v3 v4 : Nat) (mem : List Byte) (i n : Nat)
    (hn : n ≤ mem.length) :
    (∀ fuel : Nat, (n - i) / 16 ≤ fuel →
        bodyLoop fuel v1 v2 v3 v4 mem i n =
          blockSteps ((mem.take n).drop i) (v1, v2, v3, v4) ((n - i) / 16)) ∧
      body v1 v2 v3 v4 mem i n =
        blockSteps ((mem.take n).drop i) (v1, v2, v3, v4) ((n - i) / 16) ∧
      (n - i < 16 → body v1 v2 v3 v4 mem i n = (v1, v2, v3, v4)) ∧
      (∀ mem2 : List Byte, n ≤ mem2.length →
        (mem2.take (n - (n - i) % 16)).drop i = (mem.take (n - (n - i) % 16)).drop i →
        body v1 v2 v3 v4 mem2 i n = body v1 v2 v3 v4 mem i n) := by
  have hl : ((mem.take n).drop i).length = n - i := by
    simp only [List.length_drop, List.length_take]; omega
  have hsteps : refBody (v1, v2, v3, v4) ((mem.take n).drop i) =
      blockSteps ((mem.take n).drop i) (v1, v2, v3, v4) ((n - i) / 16) :=
    refBody_eq_blockSteps _ _ _ (by rw [hl])
  refine ⟨?_, ?_, ?_, ?_⟩
  · intro fuel hf
    rw [bodyLoop_eq mem n hn fuel v1 v2 v3 v4 i (by omega), hsteps]
  · rw [body_eq v1 v2 v3 v4 mem i n hn, hsteps]
  · intro hlt
    rw [body_eq v1 v2 v3 v4 mem i n hn, refBody_short _ _ (by omega)]
  · intro mem2 hn2 hsame
    rw [body_eq_take v1 v2 v3 v4 mem2 i n hn2, body_eq_take v1 v2 v3 v4 mem i n hn, hsame]

theorem body_block_steps_witness :
    textNepal.length = 27 ∧
      body 1 2 3 4 textNepal 0 27 = blockSteps ((textNepal.take 27).drop 0) (1, 2, 3, 4) (27 / 16) :=
  ⟨by decide, (body_block_steps 1 2 3 4 textNepal 0 27 (by decide)).2.1⟩

/-- C16. Tail processor: for `n ≤ len(p)`, `tail(h, p, n)` folds the word step
`rotl(h + w * P3, 17) * P4` over the `n / 4` complete little-endian words of
`p[0..n)`, left to right, and then the byte step `rotl(h + b * P5, 11) * P1`
over the remaining `n % 4` bytes in order; `tail(h, p, 0) = h`. -/
theorem tail_steps (h : Nat) (p : List Byte) (n : Nat) (hn : n ≤ p.length) :
    tail h p n =
        ((p.take n).drop (4 * (n / 4))).foldl refByteStep (wordSteps (p.take n) h (n / 4)) ∧
      ((p.take n).drop (4 * (n / 4))).length = n % 4 ∧ tail h p 0 = h := by
  have hl : (p.take n).length = n := by
    simp only [List.length_take]; omega
  refine ⟨?_, ?_, ?_⟩
  · rw [tail_eq h p n hn, refTail_eq_steps (n / 4) (p.take n) h (by rw [hl])]
  · simp only [List.length_drop, hl]; omega
  · simp only [tail, tailWords, tailBytes]

theorem tail_steps_witness :
    textAbcdefghij.length = 10 ∧
      tail 7 textAbcdefghij 10 =
        ((textAbcdefghij.take 10).drop (4 * (10 / 4))).foldl refByteStep
          (wordSteps (textAbcdefghij.take 10) 7 (10 / 4)) :=
  ⟨by decide, (tail_steps 7 textAbcdefghij 10 (by decide)).1⟩

/-! ## Writes that only fill the pending buffer -/

theorem copy_short (dst src : List Byte) (h : src.length ≤ dst.length) :
    copy dst src = src ++ dst.drop src.length := by
  simp only [copy, List.take_of_length_le h]

/-- The buffer-only branch of `Write`, with the state it leaves. -/
theorem Write_buffer (d : digest) (data : List Byte) (hlen : d.tail.length = 16)
    (h : d.over + data.length < 16) :
    Write d data =
      some ({ size := d.size + data.length, seed := d.seed, v1 := d.v1, v2 := d.v2, v3 := d.v3,
              v4 := d.v4, over := d.over + data.length,
              tail := d.tail.take d.over ++ (data ++ d.tail.drop (d.over + data.length)) },
        data.length, none) := by
  have h1 : data.length + d.over < 16 := by omega
  have h2 : d.over ≤ d.tail.length := by omega
  have h3 : data.length ≤ (d.tail.drop d.over).length := by
    simp only [List.length_drop]; omega
  simp only [Write, if_pos h1, copyAt, if_pos h2, copy_short _ _ h3, List.drop_drop]

theorem writeAll_buffer : ∀ (cs : List (List Byte)) (d : digest),
    d.tail.length = 16 → d.over + cs.flatten.length < 16 →
      ∃ r : digest, writeAll d cs = some r ∧ r.size = d.size + cs.flatten.length ∧
        r.over = d.over + cs.flatten.length ∧ r.seed = d.seed ∧ r.tail.length = 16 ∧
        r.tail.take r.over = d.tail.take d.over ++ cs.flatten := by
  intro cs
  induction cs with
  | nil =>
    intro d _ _
    exact ⟨d, rfl, by simp, by simp, rfl, by assumption, by simp⟩
  | cons c cs ih =>
    intro d hlen h
    simp only [List.flatten_cons, List.length_append] at h
    have hw := Write_buffer d c hlen (by omega)
    have hlen1 : (d.tail.take d.over ++ (c ++ d.tail.drop (d.over + c.length))).length = 16 := by
      simp only [List.length_append, List.length_take, List.length_drop]; omega
    obtain ⟨r, hr, hsize, hover, hseed, hrlen, htake⟩ :=
      ih { size := d.size + c.length, seed := d.seed, v1 := d.v1, v2 := d.v2, v3 := d.v3,
           v4 := d.v4, over := d.over + c.length,
           tail := d.tail.take d.over ++ (c ++ d.tail.drop (d.over + c.length)) } hlen1
        (by simp only; omega)
    refine ⟨r, ?_, ?_, ?_, ?_, hrlen, ?_⟩
    · simp only [writeAll, hw, hr]
    · simp only [hsize, List.flatten_cons, List.length_append]; omega
    · simp only [hover, List.flatten_cons, List.length_append]; omega
    · simp only [hseed]
    · rw [htake]
      simp only [List.flatten_cons]
      have hl : (d.tail.take d.over ++ c).length = d.over + c.length := by
        simp only [List.length_append, List.length_take]; omega
      rw [← List.append_assoc, ← List.append_assoc, List.take_left' hl, List.append_assoc]

theorem Checksum_short (data : List Byte) (seed : Nat) (h : data.length < 16) :
    Checksum data seed =
      fmix (refTail (u32 (u32 (seed + prime5) + u32 data.length)) data) := by
  have hm : data.length - (data.length &&& 15) = 0 := by
    rw [and_fifteen]; omega
  simp only [Checksum, if_pos h, hm, List.drop_zero]
  rw [tail_eq _ data data.length (Nat.le_refl _), List.take_length]

/-- C13. Buffer-only `Write`: when `p + len(data) < 16`, `Write` returns
`(len(data), nil)`, copies `data` into the pending buffer at the offsets
`p .. p + len(data) - 1`, leaves the bytes of the buffer below `p` (and those
from `p + len(data)` on) as they were, sets the pending count to
`p + len(data)`, adds `len(data)` to the total length and leaves the four
accumulators and the seed unchanged. -/
theorem write_buffer_only (d : digest) (data : List Byte) (hlen : d.tail.length = 16)
    (h : d.over + data.length < 16) :
    ∃ w : digest, Write d data = some (w, data.length, none) ∧
      w.tail = d.tail.take d.over ++ (data ++ d.tail.drop (d.over + data.length)) ∧
      w.tail.length = 16 ∧
      (∀ k : Nat, k < data.length → w.tail[d.over + k]? = data[k]?) ∧
      (∀ k : Nat, k < d.over → w.tail[k]? = d.tail[k]?) ∧
      w.over = d.over + data.length ∧ w.size = d.size + data.length ∧
      w.v1 = d.v1 ∧ w.v2 = d.v2 ∧ w.v3 = d.v3 ∧ w.v4 = d.v4 ∧ w.seed = d.seed := by
  have hto : (d.tail.take d.over).length = d.over := by
    simp only [List.length_take]; omega
  refine ⟨_, Write_buffer d data hlen h, rfl, ?_, ?_, ?_, rfl, rfl, rfl, rfl, rfl, rfl, rfl⟩
  · simp only [List.length_append, List.length_take, List.length_drop]; omega
  · intro k hk
    simp only
    rw [List.getElem?_append_right (by omega), hto, Nat.add_sub_cancel_left,
      List.getElem?_append_left hk]
  · intro k hk
    simp only
    rw [List.getElem?_append_left (by omega), List.getElem?_take, if_pos hk]

theorem write_buffer_only_witness :
    ∃ w : digest, Write stateAbcA textAbc = some (w, 3, none) ∧ w.over = 7 ∧ w.size = 7 ∧
      w.tail = [97, 98, 99, 97, 97, 98, 99, 0, 0, 0, 0, 0, 0, 0, 0, 0] :=
  match write_buffer_only stateAbcA textAbc (by decide) (by decide) with
  | ⟨w, hw, ht, _, _, _, ho, hs, _⟩ => ⟨w, hw, ho, hs, ht⟩

theorem Sum32_eq (d : digest) (h : d.over ≤ d.tail.length) :
    (Sum32 d).2 =
      fmix (refTail
        (((if d.size < 16 then (d.seed + prime5) % 4294967296
            else (rotl d.v1 1 + rotl d.v2 7 + rotl d.v3 12 + rotl d.v4 18) % 4294967296) +
          d.size % 4294967296) % 4294967296)
        (d.tail.take d.over)) := by
  simp only [Sum32, tail_eq _ _ _ h, rotl_eq, u32]
  congr 2
  split
  · omega
  · simp only [Nat.reduceSub]
    omega

/-- C14. Digest combination in `Sum32`: with `h0 = seed + P5` when the total
length `n` is below 16 and `h0 = rotl(v1,1) + rotl(v2,7) + rotl(v3,12) +
rotl(v4,18)` otherwise, `Sum32()` is `fmix` of the tail processor applied to
`h0 + (n mod 2^32)` and the first `p` bytes of the pending buffer, all
additions modulo `2^32`; the length enters modulo `2^32` whatever its size. -/
theorem sum32_combination (d : digest) (h : d.over ≤ d.tail.length) :
    (Sum32 d).2 =
      fmix (refTail
        (((if d.size < 16 then (d.seed + prime5) % 4294967296
            else (rotl d.v1 1 + rotl d.v2 7 + rotl d.v3 12 + rotl d.v4 18) % 4294967296) +
          d.size % 4294967296) % 4294967296)
        (d.tail.take d.over)) :=
  Sum32_eq d h

theorem sum32_combination_witness :
    stateNepal.over ≤ stateNepal.tail.length ∧
      (Sum32 stateNepal).2 =
        fmix (refTail
          (((if stateNepal.size < 16 then (stateNepal.seed + prime5) % 4294967296
              else (rotl stateNepal.v1 1 + rotl stateNepal.v2 7 + rotl stateNepal.v3 12 +
                rotl stateNepal.v4 18) % 4294967296) +
            stateNepal.size % 4294967296) % 4294967296)
          (stateNepal.tail.take stateNepal.over)) :=
  ⟨by decide, sum32_combination stateNepal (by decide)⟩

/-- C17. Short-input streaming equivalence: when the chunks `c1..ck` have a
total length below 16, writing them in order to a hasher from `New(seed)`
completes, and `Sum32()` then returns `Checksum(c1 ++ ... ++ ck, seed)`. -/
theorem short_chunks_eq_checksum (seed : Nat) (cs : List (List Byte))
    (h : cs.flatten.length < 16) :
    ∃ r : digest, writeAll (New seed) cs = some r ∧
      (Sum32 r).2 = Checksum cs.flatten seed := by
  have hnew : (New seed).tail.length = 16 := by
    simp only [New, Reset, List.length_replicate]
  have hover : (New seed).over = 0 := by simp only [New, Reset]
  have hsize : (New seed).size = 0 := by simp only [New, Reset]
  have hseed : (New seed).seed = seed := by simp only [New, Reset]
  obtain ⟨r, hr, hrsize, hrover, hrseed, hrlen, hrtake⟩ :=
    writeAll_buffer cs (New seed) hnew (by omega)
  refine ⟨r, hr, ?_⟩
  rw [hover, List.take_zero, List.nil_append] at hrtake
  rw [Sum32_eq r (by omega), hrtake, Checksum_short _ _ h, hrsize, hrseed, hsize, hseed,
    if_pos (by omega)]
  simp only [u32, Nat.zero_add]

theorem short_chunks_eq_checksum_witness :
    [textAbc, [], textA, textAbcdefghij].flatten.length = 14 ∧
      ∃ r : digest, writeAll (New 1) [textAbc, [], textA, textAbcdefghij] = some r ∧
        (Sum32 r).2 = Checksum [textAbc, [], textA, textAbcdefghij].flatten 1 :=
  ⟨by decide, short_chunks_eq_checksum 1 [textAbc, [], textA, textAbcdefghij] (by decide)⟩

/-- C18. Stale buffer bytes do not reach the digest: two states with the same
seed, accumulators, total length, pending count `p` and first `p` bytes of the
pending buffer have the same `Sum32()`, whatever the bytes of their buffers
from offset `p` on. -/
theorem stale_bytes_do_not_leak (d1 d2 : digest) (hseed : d1.seed = d2.seed)
    (h1 : d1.v1 = d2.v1) (h2 : d1.v2 = d2.v2) (h3 : d1.v3 = d2.v3) (h4 : d1.v4 = d2.v4)
    (hsize : d1.size = d2.size) (hover : d1.over = d2.over)
    (hp1 : d1.over ≤ d1.tail.length) (hp2 : d2.over ≤ d2.tail.length)
    (hpre : d1.tail.take d1.over = d2.tail.take d1.over) :
    (Sum32 d1).2 = (Sum32 d2).2 := by
  rw [Sum32_eq d1 hp1, Sum32_eq d2 hp2, hseed, h1, h2, h3, h4, hsize, hpre, hover]

theorem stale_bytes_do_not_leak_witness :
    stateNepal.tail ≠ stateNepalStale.tail ∧
      (Sum32 stateNepal).2 = (Sum32 stateNepalStale).2 :=
  ⟨by decide,
    stale_bytes_do_not_leak stateNepal stateNepalStale (by decide) (by decide) (by decide)
      (by decide) (by decide) (by decide) (by decide) (by decide) (by decide) (by decide)⟩

/-- C19. A zero-length `Write` is a no-op: on a state with a 16-byte buffer and
a pending count below 16, `Write` of the empty byte sequence returns
`(0, nil)` and leaves the whole state unchanged, so that `Sum32()` is the same
before and after. -/
theorem write_empty_is_noop (d : digest) (hlen : d.tail.length = 16) (hover : d.over < 16) :
    Write d [] = some (d, 0, none) ∧
      (Write d []).map (fun w => (Sum32 w.1).2) = some (Sum32 d).2 := by
  have hw : Write d [] = some (d, 0, none) := by
    rw [Write_buffer d [] hlen (by simp only [List.length_nil]; omega)]
    simp only [List.length_nil, Nat.add_zero, List.nil_append, List.take_append_drop]
  rw [hw]
  exact ⟨rfl, rfl⟩

theorem write_empty_is_noop_witness :
    stateNepal.tail.length = 16 ∧ stateNepal.over = 11 ∧
      Write stateNepal [] = some (stateNepal, 0, none) :=
  ⟨by decide, by decide, (write_empty_is_noop stateNepal (by decide) (by decide)).1⟩

/-! ## The avalanche finalizer is a bijection of the 32-bit values -/

theorem shiftRight_xor (x y s : Nat) : (x ^^^ y) >>> s = x >>> s ^^^ y >>> s := by
  apply Nat.eq_of_testBit_eq
  intro i
  simp only [Nat.testBit_shiftRight, Nat.testBit_xor]

/-- The step `h ^= h >> s` is injective for every shift `s > 0`. -/
theorem xorShift_injective (s : Nat) (hs : 0 < s) (x y : Nat)
    (h : x ^^^ x >>> s = y ^^^ y >>> s) : x = y := by
  have hz : (x ^^^ y) ^^^ (x ^^^ y) >>> s = 0 := by
    rw [shiftRight_xor, Nat.xor_assoc, ← Nat.xor_assoc y, Nat.xor_comm y (x >>> s),
      Nat.xor_assoc (x >>> s), ← Nat.xor_assoc x, h, Nat.xor_self]
  have he : x ^^^ y = (x ^^^ y) >>> s := Nat.xor_eq_zero.mp hz
  rw [Nat.shiftRight_eq_div_pow] at he
  have hone : 1 < 2 ^ s := Nat.one_lt_two_pow (by omega)
  have hzero : x ^^^ y = 0 := by
    by_contra hne
    have hlt := Nat.div_lt_self (Nat.pos_of_ne_zero hne) hone
    omega
  exact Nat.xor_eq_zero.mp hzero

/-- Multiplication modulo `2 ^ 32` by a constant `c` with an inverse `cinv`
modulo `2 ^ 32` is injective on the 32-bit values. -/
theorem mul_injective_of_inverse (c cinv k a b : Nat) (hc : c * cinv = 4294967296 * k + 1)
    (ha : a < 4294967296) (hb : b < 4294967296)
    (h : a * c % 4294967296 = b * c % 4294967296) : a = b := by
  have key : ∀ x : Nat, x < 4294967296 → x * c % 4294967296 * cinv % 4294967296 = x := by
    intro x hx
    rw [Nat.mod_mul_mod, Nat.mul_assoc, hc]
    have e : x * (4294967296 * k + 1) = 4294967296 * (k * x) + x := by ring
    rw [e, Nat.mul_add_mod, Nat.mod_eq_of_lt hx]
  have ea := key a ha
  have eb := key b hb
  rw [h] at ea
  exact ea.symm.trans eb

/-- The step `h *= prime2` is injective on the 32-bit values. -/
theorem mul_prime2_injective (a b : Nat) (ha : a < 4294967296) (hb : b < 4294967296)
    (h : u32 (a * prime2) = u32 (b * prime2)) : a = b :=
  mul_injective_of_inverse prime2 3066638151 1604247758 a b (by norm_num [prime2]) ha hb h

/-- The step `h *= prime3` is injective on the 32-bit values. -/
theorem mul_prime3_injective (a b : Nat) (ha : a < 4294967296) (hb : b < 4294967296)
    (h : u32 (a * prime3) = u32 (b * prime3)) : a = b :=
  mul_injective_of_inverse prime3 2828982549 2151551417 a b (by norm_num [prime3]) ha hb h

theorem xorShift_lt (x s : Nat) (hx : x < 4294967296) : x ^^^ x >>> s < 4294967296 := by
  have h1 : x < 2 ^ 32 := by omega
  have h2 : x >>> s < 2 ^ 32 := by
    rw [Nat.shiftRight_eq_div_pow]
    exact Nat.lt_of_le_of_lt (Nat.div_le_self _ _) h1
  have h3 := Nat.xor_lt_two_pow h1 h2
  omega

theorem fmix_injective (h1 h2 : Nat) (hb1 : h1 < 4294967296) (hb2 : h2 < 4294967296)
    (h : fmix h1 = fmix h2) : h1 = h2 := by
  simp only [fmix] at h
  have e4 := xorShift_injective 16 (by omega) _ _ h
  have e3 := mul_prime3_injective _ _
    (xorShift_lt _ 13 (by simp only [u32]; omega)) (xorShift_lt _ 13 (by simp only [u32]; omega)) e4
  have e2 := xorShift_injective 13 (by omega) _ _ e3
  have e1 := mul_prime2_injective _ _ (xorShift_lt h1 15 hb1) (xorShift_lt h2 15 hb2) e2
  exact xorShift_injective 15 (by omega) _ _ e1

/-- C20. The avalanche finalizer loses no information: `fmix` is a bijection of
the 32-bit values, that is, it maps them to 32-bit values, `fmix h1 = fmix h2`
implies `h1 = h2` for all 32-bit `h1`, `h2`, and every 32-bit value is the
image of one. -/
theorem fmix_bijective :
    (∀ h : Nat, h < 4294967296 → fmix h < 4294967296) ∧
      (∀ h1 h2 : Nat, h1 < 4294967296 → h2 < 4294967296 → fmix h1 = fmix h2 → h1 = h2) ∧
      (∀ y : Nat, y < 4294967296 → ∃ x : Nat, x < 4294967296 ∧ fmix x = y) := by
  refine ⟨fun h _ => fmix_lt h, fmix_injective, ?_⟩
  have hinj : Function.Injective
      (fun h : Fin 4294967296 => (⟨fmix h.val, fmix_lt h.val⟩ : Fin 4294967296)) := by
    intro a b hab
    have hv : fmix a.val = fmix b.val := congrArg Fin.val hab
    exact Fin.ext (fmix_injective a.val b.val a.isLt b.isLt hv)
  have hsurj := Finite.injective_iff_surjective.mp hinj
  intro y hy
  obtain ⟨x, hx⟩ := hsurj ⟨y, hy⟩
  exact ⟨x.val, x.isLt, congrArg Fin.val hx⟩

/-! ## Writes that complete a block -/

theorem refBody_block (v : Nat × Nat × Nat × Nat) (t rest : List Byte) (ht : t.length = 16) :
    refBody v (t ++ rest) = refBody (refBody v t) rest := by
  have e1 : refBody v t = refBlock v t := by
    rw [refBody_step v t (by omega), List.take_of_length_le (by omega),
      List.drop_eq_nil_of_le (by omega), refBody_short _ [] (by simp)]
  rw [e1, refBody_step v (t ++ rest) (by simp only [List.length_append]; omega),
    List.take_left' ht, List.drop_left' ht]

/-- The full-block branch of `Write` when the input goes beyond the block
boundary (`p + len(data) > 16`): the call completes, the accumulators are those
of the block processor over the leading full blocks of the pending bytes
followed by `data`, and the new pending bytes are the last `len(data) % 16`
bytes of `data`. -/
theorem Write_full (d : digest) (data : List Byte) (hlen : d.tail.length = 16)
    (hp : d.over < 16) (h : 16 < d.over + data.length) :
    ∃ w : digest, Write d data = some (w, data.length, none) ∧
      (w.v1, w.v2, w.v3, w.v4) =
        refBody (d.v1, d.v2, d.v3, d.v4)
          ((d.tail.take d.over ++ data).take
            (d.over + data.length - (d.over + data.length) % 16)) ∧
      w.over = data.length % 16 ∧
      w.tail.take (data.length % 16) = data.drop (data.length - data.length % 16) ∧
      w.tail.length = 16 ∧ w.size = d.size + data.length ∧ w.seed = d.seed := by
  have h1 : ¬ (data.length + d.over < 16) := by omega
  have h2 : d.over ≤ d.tail.length := by omega
  have h3 : d.over ≤ 16 := by omega
  have h4 : 16 - d.over < data.length := by omega
  have hcopy : d.tail.take d.over ++ copy (d.tail.drop d.over) data =
      d.tail.take d.over ++ data.take (16 - d.over) := by
    simp only [copy, List.length_drop, hlen]
    rw [List.drop_eq_nil_of_le (by simp only [List.length_drop]; omega), List.append_nil]
  have htl : (d.tail.take d.over ++ data.take (16 - d.over)).length = 16 := by
    simp only [List.length_append, List.length_take]; omega
  have h5 : 0 < (d.tail.take d.over ++ data.take (16 - d.over)).length := by omega
  have hb1 : body d.v1 d.v2 d.v3 d.v4 (d.tail.take d.over ++ data.take (16 - d.over)) 0 16 =
      refBody (d.v1, d.v2, d.v3, d.v4) (d.tail.take d.over ++ data.take (16 - d.over)) := by
    rw [body_eq _ _ _ _ _ 0 16 (by omega), List.drop_zero, List.take_of_length_le (by omega)]
  have hb2 : ∀ r : Nat × Nat × Nat × Nat,
      body r.1 r.2.1 r.2.2.1 r.2.2.2 data (16 - d.over) data.length =
        refBody r (data.drop (16 - d.over)) := by
    intro r
    rw [body_eq _ _ _ _ data _ data.length (Nat.le_refl _), List.take_length]
  have hsrc : (data.drop (data.length - data.length % 16)).length = data.length % 16 := by
    have := Nat.mod_le data.length 16
    simp only [List.length_drop]; omega
  simp only [Write, if_neg h1, copyAt, if_pos h2, if_pos h3, hcopy, if_pos h5, if_pos h4, hb1,
    hb2, and_fifteen]
  refine ⟨_, rfl, ?_, ?_, ?_, ?_, rfl, rfl⟩
  · simp only [Prod.mk.eta]
    rw [← refBody_block _ _ _ htl, List.append_assoc, List.take_append_drop,
      refBody_take_full (d.over + data.length) (d.tail.take d.over ++ data) _
        (by simp only [List.length_append, List.length_take]; omega)]
  · simp only
    have := Nat.mod_le data.length 16
    omega
  · simp only
    rw [copy_short _ _ (by rw [hsrc, htl]; omega), List.take_left' hsrc]
  · simp only [copy_length, htl]

/-- The full-block branch of `Write` when the input ends exactly at the block
boundary (`p + len(data) = 16`): the index expression `&data[i]` is out of
range and the call panics. -/
theorem Write_boundary (d : digest) (data : List Byte) (hlen : d.tail.length = 16)
    (h : d.over + data.length = 16) : Write d data = none := by
  have h1 : ¬ (data.length + d.over < 16) := by omega
  have h2 : d.over ≤ d.tail.length := by omega
  have h3 : d.over ≤ 16 := by omega
  have h4 : ¬ (16 - d.over < data.length) := by omega
  simp only [Write, if_neg h1, copyAt, if_pos h2, if_pos h3, if_neg h4]
  split <;> rfl

/-- C11. Failing input of the claim on the accumulators after a
block-completing `Write`: the state reached from `New(1)` by `Write` of `abc`
and of `a` has `p = 4` pending bytes, and `Write` of the 12 bytes
`bcdefghijklm`, for which `p + len(data) = 16`, panics at `&data[i]`, so that no
state follows the call. (When `p + len(data) > 16` the call completes with the
accumulators of the claim, `Write_full`.) -/
theorem write_block_boundary_fails :
    writeAll (New 1) [textAbc, textA] = some stateAbcA ∧
      stateAbcA.over = 4 ∧ stateAbcA.tail.length = 16 ∧
      stateAbcA.over + textBToM.length = 16 ∧ Write stateAbcA textBToM = none := by
  decide

/-- C12. Failing input of the claim on the pending bytes after a
block-completing `Write`: on the state with `p = 4` pending bytes reached from
`New(1)` by `Write` of `abc` and of `a`, `Write` of the 27 bytes of `textNepal`
should leave `(4 + 27) % 16 = 15` pending bytes, the last 15 bytes of the
input; it leaves 11 pending bytes, the last 11 bytes of the input, and the four
bytes at the offsets 12 to 15 of the input are in no block and not pending. -/
theorem write_leftover_diverges :
    writeAll (New 1) [textAbc, textA] = some stateAbcA ∧ stateAbcA.over = 4 ∧
      textNepal.length = 27 ∧ (stateAbcA.over + textNepal.length) % 16 = 15 ∧
      (Write stateAbcA textNepal).map (fun w => (w.1.over, w.1.tail.take w.1.over)) =
        some (11, textNepal.drop 16) ∧
      textNepal.drop (27 - 15) ≠ textNepal.drop 16 := by
  decide

end xxhash
